import Mathlib

/-!
Verification of the R-Tree spatial index (src/rtree.h, src/rtree.cpp).

Shallow embedding conventions:
* C++ `double` coordinates are modelled as `ℚ` (all operations used by the
  code are comparisons, `min`/`max`, subtraction and multiplication, which
  are exact on rationals).
* C++ `long population` is modelled as `ℤ`, `int id` as `ℤ`.
* `std::vector` fields become `List`s; `unique_ptr` children become direct
  subtrees of an inductive rose tree.  In the C++ code the `children`
  vector never actually stores a null pointer (children are only created
  by `make_unique` and moved between vectors), so the defensive null
  checks in the source are dead code and `children` is a plain list here.
* The parent back-pointer is represented structurally: a node's parent is
  the node whose `children` list contains it.
* The two `throw std::runtime_error` sites inside `choose_subtree` are the
  only exceptions reachable from `insert`; fallible functions therefore
  return `Option`, with `none` modelling the thrown exception.
-/

namespace RTreeSpec

/-- Models `Point` (src/rtree.h:13). -/
structure Point where
  x : ℚ
  y : ℚ
deriving DecidableEq, Repr

/-- Models `Rectangle` (src/rtree.h:21): a pair of corner points. -/
structure Rectangle where
  min_corner : Point
  max_corner : Point
deriving DecidableEq, Repr

/-- Models the default constructor `Rectangle()` (src/rtree.cpp:18):
both corners are the zero-initialized point (0,0). -/
def Rectangle.default0 : Rectangle := ⟨⟨0, 0⟩, ⟨0, 0⟩⟩

/-- The validity condition used throughout the source:
`min_corner ≤ max_corner` on both axes. -/
def Rectangle.validR (r : Rectangle) : Prop :=
  r.min_corner.x ≤ r.max_corner.x ∧ r.min_corner.y ≤ r.max_corner.y

instance : DecidablePred Rectangle.validR := fun r => by
  unfold Rectangle.validR; infer_instance

/-- The invalidity test as written in the source (`min > max` on some axis). -/
def Rectangle.invalidR (r : Rectangle) : Prop :=
  r.min_corner.x > r.max_corner.x ∨ r.min_corner.y > r.max_corner.y

instance : DecidablePred Rectangle.invalidR := fun r => by
  unfold Rectangle.invalidR; infer_instance

/-- Models `Rectangle::area` (src/rtree.h:31). -/
def Rectangle.area (r : Rectangle) : ℚ :=
  if r.max_corner.x < r.min_corner.x ∨ r.max_corner.y < r.min_corner.y then 0
  else (r.max_corner.x - r.min_corner.x) * (r.max_corner.y - r.min_corner.y)

/-- Models `Rectangle::contains(const Point&)` (src/rtree.h:38). -/
def Rectangle.containsP (r : Rectangle) (p : Point) : Bool :=
  p.x ≥ r.min_corner.x ∧ p.x ≤ r.max_corner.x ∧
  p.y ≥ r.min_corner.y ∧ p.y ≤ r.max_corner.y

/-- Models `Rectangle::contains(const Rectangle&)` (src/rtree.h:44). -/
def Rectangle.containsR (r other : Rectangle) : Bool :=
  other.min_corner.x ≥ r.min_corner.x ∧ other.max_corner.x ≤ r.max_corner.x ∧
  other.min_corner.y ≥ r.min_corner.y ∧ other.max_corner.y ≤ r.max_corner.y

/-- Models `Rectangle::intersects` (src/rtree.cpp:26): the raw
separating-axis test on the stored corners (no validity check). -/
def Rectangle.intersects (self other : Rectangle) : Bool :=
  if self.max_corner.x < other.min_corner.x ∨ self.min_corner.x > other.max_corner.x ∨
     self.max_corner.y < other.min_corner.y ∨ self.min_corner.y > other.max_corner.y
  then false
  else true

/-- Models `Rectangle::expand` (src/rtree.cpp:38); the C++ mutates `self`,
here the updated rectangle is returned. -/
def Rectangle.expand (self other : Rectangle) : Rectangle :=
  if other.min_corner.x > other.max_corner.x ∨ other.min_corner.y > other.max_corner.y then
    self
  else if self.min_corner.x > self.max_corner.x ∨ self.min_corner.y > self.max_corner.y then
    other
  else
    ⟨⟨min self.min_corner.x other.min_corner.x, min self.min_corner.y other.min_corner.y⟩,
     ⟨max self.max_corner.x other.max_corner.x, max self.max_corner.y other.max_corner.y⟩⟩

/-- Models `Rectangle::combine` (src/rtree.cpp:59). -/
def Rectangle.combine (r1 r2 : Rectangle) : Rectangle :=
  if (r1.min_corner.x > r1.max_corner.x ∨ r1.min_corner.y > r1.max_corner.y) ∧
     (r2.min_corner.x > r2.max_corner.x ∨ r2.min_corner.y > r2.max_corner.y) then
    Rectangle.default0
  else if r1.min_corner.x > r1.max_corner.x ∨ r1.min_corner.y > r1.max_corner.y then
    r2
  else if r2.min_corner.x > r2.max_corner.x ∨ r2.min_corner.y > r2.max_corner.y then
    r1
  else
    ⟨⟨min r1.min_corner.x r2.min_corner.x, min r1.min_corner.y r2.min_corner.y⟩,
     ⟨max r1.max_corner.x r2.max_corner.x, max r1.max_corner.y r2.max_corner.y⟩⟩

/-- Models `Rectangle::area_increase` (src/rtree.cpp:81). -/
def Rectangle.area_increase (self other : Rectangle) : ℚ :=
  if other.min_corner.x > other.max_corner.x ∨ other.min_corner.y > other.max_corner.y then 0
  else if self.min_corner.x > self.max_corner.x ∨ self.min_corner.y > self.max_corner.y then
    other.area
  else (Rectangle.combine self other).area - self.area

/-- Models `DataItem` (src/rtree.h:64). -/
structure DataItem where
  id : ℤ
  name : String
  population : ℤ
  bounds : Rectangle
deriving DecidableEq, Repr

/-- Models `RTreeNode` (src/rtree.h:80): a leaf holds `data_entries`,
an internal node holds `children`; both cache an `mbr`. -/
inductive RTreeNode where
  | leaf (mbr : Rectangle) (data_entries : List DataItem)
  | node (mbr : Rectangle) (children : List RTreeNode)
deriving Repr

namespace RTreeNode

/-- The cached bounding rectangle of a node. -/
def mbr : RTreeNode → Rectangle
  | .leaf r _ => r
  | .node r _ => r

/-- Models `RTreeNode::size` (src/rtree.cpp:163). -/
def size : RTreeNode → ℕ
  | .leaf _ es => es.length
  | .node _ cs => cs.length

/-- Models `RTreeNode::is_full` (src/rtree.cpp:157). -/
def is_full (n : RTreeNode) (max_entries : ℕ) : Bool :=
  n.size ≥ max_entries

/-- All data items stored in the subtree rooted at a node, in document
order (leaf entries in order, children left to right). -/
def items : RTreeNode → List DataItem
  | .leaf _ es => es
  | .node _ cs => cs.attach.flatMap fun c => items c.1
termination_by n => sizeOf n
decreasing_by
  have := List.sizeOf_lt_of_mem c.2
  simp only [RTreeNode.node.sizeOf_spec]
  omega

end RTreeNode

/-- Folding `expand` over a list of rectangles, as the `update_mbr` loops do. -/
def foldExpand (init : Rectangle) (rs : List Rectangle) : Rectangle :=
  rs.foldl Rectangle.expand init

/-- Models the leaf branch of `RTreeNode::update_mbr` (src/rtree.cpp:109):
start from the first entry's bounds and `expand` with the rest;
an empty leaf gets the default rectangle. -/
def mbr_of_entries : List DataItem → Rectangle
  | [] => Rectangle.default0
  | e :: rest => foldExpand e.bounds (rest.map (fun it => it.bounds))

/-- Models the internal branch of `RTreeNode::update_mbr` (src/rtree.cpp:124):
start from the first child's mbr and `expand` with the rest
(the null-skipping in the source is dead code, children are never null);
an empty node gets the default rectangle. -/
def mbr_of_children : List RTreeNode → Rectangle
  | [] => Rectangle.default0
  | c :: rest => foldExpand c.mbr (rest.map RTreeNode.mbr)

/-- Models `RTreeNode::update_mbr` (src/rtree.cpp:107): recompute the cached
mbr from the node's current contents. -/
def RTreeNode.update_mbr : RTreeNode → RTreeNode
  | .leaf _ es => .leaf (mbr_of_entries es) es
  | .node _ cs => .node (mbr_of_children cs) cs

/-- Models `RTree::search_recursive` (src/rtree.cpp:476): at a leaf collect
the entries intersecting the query; at an internal node descend only into
children whose mbr intersects the query. -/
def search_recursive (q : Rectangle) : RTreeNode → List DataItem
  | .leaf _ es => es.filter fun it => it.bounds.intersects q
  | .node _ cs =>
      cs.attach.flatMap fun c =>
        if c.1.mbr.intersects q then search_recursive q c.1 else []
termination_by n => sizeOf n
decreasing_by
  have := List.sizeOf_lt_of_mem c.2
  simp only [RTreeNode.node.sizeOf_spec]
  omega

/-- Models `RTree::search_pop_recursive` (src/rtree.cpp:507): same traversal
as `search_recursive`, but a leaf entry is collected only when additionally
`min_population ≤ population`. -/
def search_pop_recursive (q : Rectangle) (min_population : ℤ) : RTreeNode → List DataItem
  | .leaf _ es =>
      es.filter fun it => decide (min_population ≤ it.population) && it.bounds.intersects q
  | .node _ cs =>
      cs.attach.flatMap fun c =>
        if c.1.mbr.intersects q then search_pop_recursive q min_population c.1 else []
termination_by n => sizeOf n
decreasing_by
  have := List.sizeOf_lt_of_mem c.2
  simp only [RTreeNode.node.sizeOf_spec]
  omega

/-- One step of the selection loop in `RTree::choose_subtree`
(src/rtree.cpp:279).  The state is `none` before any child was examined
(modelling `best_child == nullptr`, `min_increase == min_area == DBL_MAX`)
and `some (best_index, min_increase, min_area)` afterwards. -/
def choose_step (b : Rectangle) (st : Option (ℕ × ℚ × ℚ)) (idx : ℕ) (c : RTreeNode) :
    Option (ℕ × ℚ × ℚ) :=
  let inc := c.mbr.area_increase b
  let ar := c.mbr.area
  match st with
  | none => some (idx, inc, ar)
  | some (bi, mi, ma) =>
      if inc < mi then some (idx, inc, ar)
      else if inc = mi then
        (if ar < ma then some (idx, inc, ar) else some (bi, mi, ma))
      else some (bi, mi, ma)

/-- The selection loop of `RTree::choose_subtree` over the children list,
threading the running index. -/
def choose_loop (b : Rectangle) : List RTreeNode → ℕ → Option (ℕ × ℚ × ℚ) →
    Option (ℕ × ℚ × ℚ)
  | [], _, st => st
  | c :: cs, idx, st => choose_loop b cs (idx + 1) (choose_step b st idx c)

/-- Models `RTree::choose_subtree` (src/rtree.cpp:265), returning the index
of the chosen child.  `none` models the `throw std::runtime_error` paths
(empty children list; the all-null fallback of the source is unreachable
because children are never null). -/
def choose_subtree (cs : List RTreeNode) (b : Rectangle) : Option ℕ :=
  match choose_loop b cs 0 none with
  | none => none
  | some (i, _, _) => some i

/-- The split position computed by `RTree::split_node` (src/rtree.cpp:387-412)
for a node of size `n` with configured minimum `m`:
`max m (n / 2)`, adjusted to leave `m` on each side when `n > 2 m`,
or `(n + 1) / 2` otherwise, finally clamped into `[1, n - 1]`. -/
def splitIndex (n m : ℕ) : ℕ :=
  let si0 := max m (n / 2)
  let si1 :=
    if 2 * m < n then
      let a := if n - si0 < m then n - m else si0
      if a < m then m else a
    else (n + 1) / 2
  max 1 (min si1 (if 1 < n then n - 1 else 1))

/-- Models `RTree::split_node` (src/rtree.cpp:385): keep the first
`splitIndex` entries/children in the original node, move the rest to a new
sibling of the same kind, and recompute both mbrs via `update_mbr`.
Returns `(original node, new sibling)`; in this embedding the moved
children's parent is the new sibling by construction. -/
def split_node (m : ℕ) : RTreeNode → RTreeNode × RTreeNode
  | .leaf r es =>
      let si := splitIndex es.length m
      ((RTreeNode.leaf r (es.take si)).update_mbr,
       (RTreeNode.leaf r (es.drop si)).update_mbr)
  | .node r cs =>
      let si := splitIndex cs.length m
      ((RTreeNode.node r (cs.take si)).update_mbr,
       (RTreeNode.node r (cs.drop si)).update_mbr)

mutual

/-- Models `RTree::insert_recursive` (src/rtree.cpp:332).  The mbr is
expanded with the item's bounds first; a leaf appends the entry and splits
when full; an internal node descends into the child chosen by
`choose_subtree`, attaches a returned sibling at the end of `children`,
and splits itself when full.  `none` models the exception thrown by
`choose_subtree`; otherwise the result is the updated node and the new
sibling, if a split happened. -/
def insert_recursive (minE maxE : ℕ) (item : DataItem) :
    RTreeNode → Option (RTreeNode × Option RTreeNode)
  | .leaf r es =>
      let r1 := r.expand item.bounds
      let es1 := es ++ [item]
      if maxE ≤ es1.length then
        let p := split_node minE (.leaf r1 es1)
        some (p.1, some p.2)
      else
        some (.leaf r1 es1, none)
  | .node r cs =>
      let r1 := r.expand item.bounds
      match choose_subtree cs item.bounds with
      | none => none
      | some i =>
          match insert_child minE maxE item cs i with
          | none => none
          | some (cs1, osib) =>
              match osib with
              | none => some (.node r1 cs1, none)
              | some sib =>
                  let cs2 := cs1 ++ [sib]
                  if maxE ≤ cs2.length then
                    let p := split_node minE (.node r1 cs2)
                    some (p.1, some p.2)
                  else
                    some (.node r1 cs2, none)
termination_by n => sizeOf n

/-- Recursive insertion into the `i`-th child of a children list, replacing
that child in place (the C++ recurses through the pointer returned by
`choose_subtree`, which is the `i`-th element of `children`).  The
out-of-range case is unreachable because `choose_subtree` returns an index
of an existing child. -/
def insert_child (minE maxE : ℕ) (item : DataItem) :
    List RTreeNode → ℕ → Option (List RTreeNode × Option RTreeNode)
  | [], _ => none
  | c :: cs, 0 =>
      match insert_recursive minE maxE item c with
      | none => none
      | some (c1, osib) => some (c1 :: cs, osib)
  | c :: cs, i + 1 =>
      match insert_child minE maxE item cs i with
      | none => none
      | some (cs1, osib) => some (c :: cs1, osib)
termination_by cs _ => sizeOf cs

end

/-- Models `RTree` (src/rtree.h:102): the root node plus the two
configuration values. -/
structure RTree where
  root : RTreeNode
  min_entries : ℕ
  max_entries : ℕ
deriving Repr

/-- Models the `RTree` constructor (src/rtree.cpp:170):
`min_entries = max 2 minE`, `max_entries = max 3 (max (2 * min_entries) maxE)`,
and the root starts as an empty leaf (whose mbr is the default rectangle). -/
def RTree.new (minE maxE : ℕ) : RTree :=
  let m := max 2 minE
  ⟨.leaf Rectangle.default0 [], m, max 3 (max (m * 2) maxE)⟩

/-- Models `RTree::insert` (src/rtree.cpp:187): run the recursive insert on
the root; if it reports a split, build a new internal root holding the old
root and the new sibling, with mbr `combine` of the two. -/
def RTree.insert (t : RTree) (item : DataItem) : Option RTree :=
  match insert_recursive t.min_entries t.max_entries item t.root with
  | none => none
  | some (r, none) => some ⟨r, t.min_entries, t.max_entries⟩
  | some (r, some sib) =>
      some ⟨.node (Rectangle.combine r.mbr sib.mbr) [r, sib], t.min_entries, t.max_entries⟩

/-- Models `RTree::search` (src/rtree.cpp:219): prune at the root, then
run the recursive search.  (`root_` is never null in the source.) -/
def RTree.search (t : RTree) (q : Rectangle) : List DataItem :=
  if t.root.mbr.intersects q then search_recursive q t.root else []

/-- Models `RTree::search_with_population` (src/rtree.cpp:230). -/
def RTree.search_with_population (t : RTree) (q : Rectangle) (min_population : ℤ) :
    List DataItem :=
  if t.root.mbr.intersects q then search_pop_recursive q min_population t.root else []

/-- Models `RTree::empty` (src/rtree.cpp:257). -/
def RTree.empty (t : RTree) : Bool :=
  t.root.size = 0

/-- Inserting a list of items one at a time, from left to right; `none` as
soon as one insertion raises. -/
def insertList (t : RTree) (xs : List DataItem) : Option RTree :=
  xs.foldlM RTree.insert t

/-- All subtrees of a node, the node itself included. -/
def subnodes : RTreeNode → List RTreeNode
  | .leaf r es => [.leaf r es]
  | .node r cs => .node r cs :: (cs.attach.flatMap fun c => subnodes c.1)
termination_by n => sizeOf n
decreasing_by
  have := List.sizeOf_lt_of_mem c.2
  simp only [RTreeNode.node.sizeOf_spec]
  omega

/-! ### Basic equation and membership lemmas -/

theorem items_leaf (r : Rectangle) (es : List DataItem) :
    (RTreeNode.leaf r es).items = es := by
  simp [RTreeNode.items]

theorem items_node (r : Rectangle) (cs : List RTreeNode) :
    (RTreeNode.node r cs).items = cs.flatMap RTreeNode.items := by
  rw [RTreeNode.items]
  simp [List.flatMap]

theorem search_recursive_leaf (q r : Rectangle) (es : List DataItem) :
    search_recursive q (.leaf r es) = es.filter fun it => it.bounds.intersects q := by
  simp [search_recursive]

theorem search_recursive_node (q r : Rectangle) (cs : List RTreeNode) :
    search_recursive q (.node r cs) =
      cs.flatMap fun c => if c.mbr.intersects q then search_recursive q c else [] := by
  rw [search_recursive]
  simp [List.flatMap]

theorem search_pop_recursive_leaf (q r : Rectangle) (p : ℤ) (es : List DataItem) :
    search_pop_recursive q p (.leaf r es) =
      es.filter fun it => decide (p ≤ it.population) && it.bounds.intersects q := by
  simp [search_pop_recursive]

theorem search_pop_recursive_node (q r : Rectangle) (p : ℤ) (cs : List RTreeNode) :
    search_pop_recursive q p (.node r cs) =
      cs.flatMap fun c => if c.mbr.intersects q then search_pop_recursive q p c else [] := by
  rw [search_pop_recursive]
  simp [List.flatMap]

theorem subnodes_leaf (r : Rectangle) (es : List DataItem) :
    subnodes (.leaf r es) = [.leaf r es] := by
  simp [subnodes]

theorem subnodes_node (r : Rectangle) (cs : List RTreeNode) :
    subnodes (.node r cs) = .node r cs :: cs.flatMap subnodes := by
  rw [subnodes]
  simp [List.flatMap]

set_option linter.unusedVariables false in
/-- Rose-tree induction principle for `RTreeNode`.  (The membership
hypothesis `hc` is consumed by the termination argument.) -/
theorem RTreeNode.my_ind (P : RTreeNode → Prop)
    (hleaf : ∀ r es, P (.leaf r es))
    (hnode : ∀ r cs, (∀ c ∈ cs, P c) → P (.node r cs)) :
    ∀ n, P n
  | .leaf r es => hleaf r es
  | .node r cs => hnode r cs (fun c hc => RTreeNode.my_ind P hleaf hnode c)
termination_by n => sizeOf n
decreasing_by
  have := List.sizeOf_lt_of_mem hc
  simp only [RTreeNode.node.sizeOf_spec]
  omega

theorem self_mem_subnodes (n : RTreeNode) : n ∈ subnodes n := by
  cases n with
  | leaf r es => simp [subnodes_leaf]
  | node r cs => simp [subnodes_node]

theorem mem_subnodes_child {c m : RTreeNode} {cs : List RTreeNode} (r : Rectangle)
    (hc : c ∈ cs) (hm : m ∈ subnodes c) : m ∈ subnodes (.node r cs) := by
  rw [subnodes_node]
  exact List.mem_cons_of_mem _ (List.mem_flatMap.mpr ⟨c, hc, hm⟩)

/-! ### Geometry lemmas -/

/-- Interval containment of rectangles: `s` lies inside `r` on both axes. -/
def subsetR (s r : Rectangle) : Prop :=
  r.min_corner.x ≤ s.min_corner.x ∧ s.max_corner.x ≤ r.max_corner.x ∧
  r.min_corner.y ≤ s.min_corner.y ∧ s.max_corner.y ≤ r.max_corner.y

instance : ∀ s r, Decidable (subsetR s r) := fun s r => by
  unfold subsetR; infer_instance

theorem subsetR_refl (r : Rectangle) : subsetR r r :=
  ⟨le_refl _, le_refl _, le_refl _, le_refl _⟩

theorem subsetR_trans {a b c : Rectangle} (h1 : subsetR a b) (h2 : subsetR b c) :
    subsetR a c := by
  obtain ⟨x1, x2, x3, x4⟩ := h1
  obtain ⟨y1, y2, y3, y4⟩ := h2
  exact ⟨le_trans y1 x1, le_trans x2 y2, le_trans y3 x3, le_trans x4 y4⟩

theorem validR_iff_not_invalidR (r : Rectangle) : r.validR ↔ ¬ r.invalidR := by
  unfold Rectangle.validR Rectangle.invalidR
  constructor
  · rintro ⟨h1, h2⟩ (h | h) <;> linarith
  · intro h
    push_neg at h
    exact h

theorem validR_of_subsetR {s r : Rectangle} (hs : subsetR s r) (hv : s.validR) :
    r.validR := by
  obtain ⟨x1, x2, x3, x4⟩ := hs
  obtain ⟨v1, v2⟩ := hv
  exact ⟨le_trans x1 (le_trans v1 x2), le_trans x3 (le_trans v2 x4)⟩

/-- A valid rectangle is inside its own `expand`. -/
theorem subsetR_expand_left {a : Rectangle} (b : Rectangle) (ha : a.validR) :
    subsetR a (a.expand b) := by
  unfold Rectangle.expand
  rcases ha with ⟨h1, h2⟩
  split
  · exact subsetR_refl a
  · split
    · rename_i hinv
      rcases hinv with h | h <;> simp at h <;> linarith
    · exact ⟨min_le_left _ _, le_max_left _ _, min_le_left _ _, le_max_left _ _⟩

/-- A valid second operand is inside the `expand` result. -/
theorem subsetR_expand_right {b : Rectangle} (a : Rectangle) (hb : b.validR) :
    subsetR b (a.expand b) := by
  unfold Rectangle.expand
  rcases hb with ⟨h1, h2⟩
  split
  · rename_i hinv
    rcases hinv with h | h <;> simp at h <;> linarith
  · split
    · exact subsetR_refl b
    · exact ⟨min_le_right _ _, le_max_right _ _, min_le_right _ _, le_max_right _ _⟩

/-- A valid first operand is inside the `combine` result. -/
theorem subsetR_combine_left {a : Rectangle} (b : Rectangle) (ha : a.validR) :
    subsetR a (Rectangle.combine a b) := by
  have hna := (validR_iff_not_invalidR a).mp ha
  unfold Rectangle.combine
  split
  · rename_i hh
    exact absurd hh.1 hna
  · split
    · rename_i hh
      exact absurd hh hna
    · split
      · exact subsetR_refl a
      · exact ⟨min_le_left _ _, le_max_left _ _, min_le_left _ _, le_max_left _ _⟩

/-- A valid second operand is inside the `combine` result. -/
theorem subsetR_combine_right {b : Rectangle} (a : Rectangle) (hb : b.validR) :
    subsetR b (Rectangle.combine a b) := by
  have hnb := (validR_iff_not_invalidR b).mp hb
  unfold Rectangle.combine
  split
  · rename_i hh
    exact absurd hh.2 hnb
  · split
    · exact subsetR_refl b
    · split
      · rename_i hh
        exact absurd hh hnb
      · exact ⟨min_le_right _ _, le_max_right _ _, min_le_right _ _, le_max_right _ _⟩

/-- If a valid rectangle `s` inside `r` intersects `q`, then `r` intersects
`q` as well (monotonicity of the raw separating-axis test). -/
theorem intersects_of_subsetR {s r q : Rectangle} (hs : subsetR s r) (hv : s.validR)
    (hi : s.intersects q = true) : r.intersects q = true := by
  obtain ⟨x1, x2, x3, x4⟩ := hs
  obtain ⟨v1, v2⟩ := hv
  unfold Rectangle.intersects at hi ⊢
  split
  · rename_i hh
    exfalso
    have := hi
    split at this
    · exact Bool.false_ne_true this
    · rename_i hh2
      push_neg at hh2
      obtain ⟨k1, k2, k3, k4⟩ := hh2
      rcases hh with h | h | h | h <;> linarith
  · rfl

/-- `foldExpand` keeps a valid accumulator inside the result. -/
theorem subsetR_foldExpand_init {init : Rectangle} (rs : List Rectangle)
    (hv : init.validR) : subsetR init (foldExpand init rs) := by
  induction rs generalizing init with
  | nil => exact subsetR_refl init
  | cons b rest ih =>
      have h1 : subsetR init (init.expand b) := subsetR_expand_left b hv
      have h2 : (init.expand b).validR := validR_of_subsetR h1 hv
      exact subsetR_trans h1 (ih h2)

/-- `foldExpand` covers every valid member of the list. -/
theorem subsetR_foldExpand_mem {r : Rectangle} (init : Rectangle) {rs : List Rectangle}
    (hmem : r ∈ rs) (hv : r.validR) : subsetR r (foldExpand init rs) := by
  induction rs generalizing init with
  | nil => cases hmem
  | cons b rest ih =>
      rcases List.mem_cons.mp hmem with rfl | hmem2
      · have h1 : subsetR r (init.expand r) := subsetR_expand_right init hv
        have h2 : (init.expand r).validR := validR_of_subsetR h1 hv
        exact subsetR_trans h1 (subsetR_foldExpand_init rest h2)
      · exact ih (init.expand b) hmem2

/-- The recomputed leaf mbr covers every valid entry. -/
theorem subsetR_mbr_of_entries {it : DataItem} {es : List DataItem}
    (hmem : it ∈ es) (hv : it.bounds.validR) : subsetR it.bounds (mbr_of_entries es) := by
  cases es with
  | nil => cases hmem
  | cons e rest =>
      rcases List.mem_cons.mp hmem with rfl | hmem2
      · exact subsetR_foldExpand_init _ hv
      · exact subsetR_foldExpand_mem _ (List.mem_map_of_mem _ hmem2) hv

/-- The recomputed internal mbr covers every child mbr that is valid. -/
theorem subsetR_mbr_of_children {c : RTreeNode} {cs : List RTreeNode}
    (hmem : c ∈ cs) (hv : c.mbr.validR) : subsetR c.mbr (mbr_of_children cs) := by
  cases cs with
  | nil => cases hmem
  | cons c0 rest =>
      rcases List.mem_cons.mp hmem with rfl | hmem2
      · exact subsetR_foldExpand_init _ hv
      · exact subsetR_foldExpand_mem _ (List.mem_map_of_mem _ hmem2) hv

/-! ### The structural invariant maintained by insertion -/

/-- The per-node part of the invariant: the fanout bound (strict, because a
node that reaches `max_entries` is split at once), non-emptiness of internal
nodes, and the mbr covering every valid item stored beneath the node. -/
def localInv (maxE : ℕ) : RTreeNode → Prop
  | .leaf r es => es.length < maxE ∧ ∀ it ∈ es, it.bounds.validR → subsetR it.bounds r
  | .node r cs => cs ≠ [] ∧ cs.length < maxE ∧
      ∀ c ∈ cs, ∀ it ∈ c.items, it.bounds.validR → subsetR it.bounds r

/-- The invariant holds hereditarily on every subtree. -/
def Inv (maxE : ℕ) (n : RTreeNode) : Prop := ∀ m ∈ subnodes n, localInv maxE m

theorem Inv_leaf_iff (maxE : ℕ) (r : Rectangle) (es : List DataItem) :
    Inv maxE (.leaf r es) ↔ localInv maxE (.leaf r es) := by
  unfold Inv
  rw [subnodes_leaf]
  simp

theorem Inv_node_iff (maxE : ℕ) (r : Rectangle) (cs : List RTreeNode) :
    Inv maxE (.node r cs) ↔ localInv maxE (.node r cs) ∧ ∀ c ∈ cs, Inv maxE c := by
  unfold Inv
  rw [subnodes_node]
  constructor
  · intro h
    refine ⟨h _ (List.mem_cons_self _ _), fun c hc m hm => ?_⟩
    exact h m (List.mem_cons_of_mem _ (List.mem_flatMap.mpr ⟨c, hc, hm⟩))
  · rintro ⟨hself, hsub⟩ m hm
    rcases List.mem_cons.mp hm with rfl | hm2
    · exact hself
    · obtain ⟨c, hc, hmc⟩ := List.mem_flatMap.mp hm2
      exact hsub c hc m hmc

theorem Inv.self {maxE : ℕ} {n : RTreeNode} (h : Inv maxE n) : localInv maxE n :=
  h n (self_mem_subnodes n)

/-- Under the invariant, a node's cached mbr covers every valid item in its
subtree. -/
theorem Inv.cov {maxE : ℕ} {n : RTreeNode} (h : Inv maxE n) :
    ∀ it ∈ n.items, it.bounds.validR → subsetR it.bounds n.mbr := by
  cases n with
  | leaf r es =>
      have := h.self
      rw [items_leaf]
      exact this.2
  | node r cs =>
      have := h.self
      rw [items_node]
      intro it hit hv
      obtain ⟨c, hc, hitc⟩ := List.mem_flatMap.mp hit
      exact this.2.2 c hc it hitc hv

/-- Soundness and completeness of the recursive search under the invariant,
provided every stored item has valid bounds: the traversal computes exactly
the filter of the stored items by the intersection test. -/
theorem search_recursive_eq_filter {maxE : ℕ} (q : Rectangle) :
    ∀ n, Inv maxE n → (∀ it ∈ n.items, it.bounds.validR) →
      search_recursive q n = n.items.filter fun it => it.bounds.intersects q := by
  refine RTreeNode.my_ind _ (fun r es => ?_) (fun r cs ih => ?_)
  · intro _ _
    rw [search_recursive_leaf, items_leaf]
  · intro hInv hval
    rw [search_recursive_node, items_node, List.filter_flatMap]
    obtain ⟨hlocal, hsub⟩ := (Inv_node_iff maxE r cs).mp hInv
    refine List.flatMap_congr ?_
    intro c hc
    have hvalc : ∀ it ∈ c.items, it.bounds.validR := by
      intro it hit
      exact hval it (by rw [items_node]; exact List.mem_flatMap.mpr ⟨c, hc, hit⟩)
    by_cases hint : c.mbr.intersects q = true
    · rw [if_pos hint]
      exact ih c hc (hsub c hc) hvalc
    · rw [if_neg hint]
      symm
      rw [List.filter_eq_nil_iff]
      intro it hit hitq
      exact hint (intersects_of_subsetR ((hsub c hc).cov it hit (hvalc it hit))
        (hvalc it hit) hitq)

/-- The population search is the population filter applied to the plain
search: both traversals prune identically, for every tree shape. -/
theorem search_pop_eq_filter (q : Rectangle) (p : ℤ) :
    ∀ n, search_pop_recursive q p n =
      (search_recursive q n).filter fun it => decide (p ≤ it.population) := by
  refine RTreeNode.my_ind _ (fun r es => ?_) (fun r cs ih => ?_)
  · rw [search_pop_recursive_leaf, search_recursive_leaf, List.filter_filter]
  · rw [search_pop_recursive_node, search_recursive_node, List.filter_flatMap]
    refine List.flatMap_congr ?_
    intro c hc
    by_cases hint : c.mbr.intersects q = true
    · rw [if_pos hint, if_pos hint]
      exact ih c hc
    · rw [if_neg hint, if_neg hint]
      rfl

/-- Everything the search returns is stored in the tree. -/
theorem mem_items_of_mem_search {q : Rectangle} {it : DataItem} :
    ∀ n, it ∈ search_recursive q n → it ∈ n.items := by
  refine RTreeNode.my_ind _ (fun r es => ?_) (fun r cs ih => ?_)
  · rw [search_recursive_leaf, items_leaf]
    exact fun h => List.mem_of_mem_filter h
  · rw [search_recursive_node, items_node]
    intro h
    obtain ⟨c, hc, hmem⟩ := List.mem_flatMap.mp h
    by_cases hint : c.mbr.intersects q = true
    · rw [if_pos hint] at hmem
      exact List.mem_flatMap.mpr ⟨c, hc, ih c hc hmem⟩
    · rw [if_neg hint] at hmem
      cases hmem

/-! ### Analysis of the subtree-selection loop -/

/-- Loop invariant of `choose_loop` with respect to the children already
examined: the state records the index, area increase and area of a best
child so far, minimal in increase and, among minimal increases, in area. -/
def StInv (b : Rectangle) (l : List RTreeNode) : Option (ℕ × ℚ × ℚ) → Prop
  | none => l = []
  | some (i, mi, ma) =>
      ∃ h : i < l.length, mi = (l.get ⟨i, h⟩).mbr.area_increase b ∧
        ma = (l.get ⟨i, h⟩).mbr.area ∧
        ∀ c ∈ l, mi ≤ c.mbr.area_increase b ∧
          (c.mbr.area_increase b = mi → ma ≤ c.mbr.area)

theorem StInv_step (b : Rectangle) {l : List RTreeNode} {st : Option (ℕ × ℚ × ℚ)}
    (c : RTreeNode) (h : StInv b l st) :
    StInv b (l ++ [c]) (choose_step b st l.length c) := by
  have hlt : l.length < (l ++ [c]).length := by simp
  have hgetc : (l ++ [c]).get ⟨l.length, hlt⟩ = c := by
    simp
  cases st with
  | none =>
      have hl : l = [] := h
      subst hl
      refine ⟨hlt, ?_, ?_, ?_⟩
      · rw [hgetc]
      · rw [hgetc]
      · intro d hd
        rcases List.mem_singleton.mp hd with rfl
        exact ⟨le_refl _, fun _ => le_refl _⟩
  | some p =>
      obtain ⟨bi, mi, ma⟩ := p
      obtain ⟨hbi, hmi, hma, hmin⟩ := h
      have hbi2 : bi < (l ++ [c]).length := by simp; omega
      have hgetbi : (l ++ [c]).get ⟨bi, hbi2⟩ = l.get ⟨bi, hbi⟩ := by
        simp [List.getElem_append_left hbi]
      simp only [choose_step]
      by_cases h1 : c.mbr.area_increase b < mi
      · rw [if_pos h1]
        refine ⟨hlt, by rw [hgetc], by rw [hgetc], ?_⟩
        intro d hd
        rcases List.mem_append.mp hd with hd | hd
        · have hold := hmin d hd
          constructor
          · exact le_trans (le_of_lt h1) hold.1
          · intro heq
            exfalso
            have h2 := hold.1
            rw [heq] at h2
            exact absurd h1 (not_lt.mpr h2)
        · rcases List.mem_singleton.mp hd with rfl
          exact ⟨le_refl _, fun _ => le_refl _⟩
      · rw [if_neg h1]
        by_cases h2 : c.mbr.area_increase b = mi
        · rw [if_pos h2]
          by_cases h3 : c.mbr.area < ma
          · rw [if_pos h3]
            refine ⟨hlt, by rw [hgetc], by rw [hgetc], ?_⟩
            intro d hd
            rcases List.mem_append.mp hd with hd | hd
            · have hold := hmin d hd
              rw [← h2] at hold
              exact ⟨hold.1, fun heq => le_trans (le_of_lt h3) (hold.2 heq)⟩
            · rcases List.mem_singleton.mp hd with rfl
              exact ⟨le_refl _, fun _ => le_refl _⟩
          · rw [if_neg h3]
            refine ⟨hbi2, by rw [hgetbi]; exact hmi, by rw [hgetbi]; exact hma, ?_⟩
            intro d hd
            rcases List.mem_append.mp hd with hd | hd
            · exact hmin d hd
            · rcases List.mem_singleton.mp hd with rfl
              exact ⟨le_of_eq h2.symm, fun _ => not_lt.mp h3⟩
        · rw [if_neg h2]
          refine ⟨hbi2, by rw [hgetbi]; exact hmi, by rw [hgetbi]; exact hma, ?_⟩
          intro d hd
          rcases List.mem_append.mp hd with hd | hd
          · exact hmin d hd
          · rcases List.mem_singleton.mp hd with rfl
            exact ⟨not_lt.mp h1, fun heq => absurd heq h2⟩

theorem StInv_loop (b : Rectangle) :
    ∀ (cs pre : List RTreeNode) (st : Option (ℕ × ℚ × ℚ)), StInv b pre st →
      StInv b (pre ++ cs) (choose_loop b cs pre.length st) := by
  intro cs
  induction cs with
  | nil =>
      intro pre st h
      simpa [choose_loop] using h
  | cons c rest ih =>
      intro pre st h
      have hstep := StInv_step b c h
      have := ih (pre ++ [c]) _ hstep
      rw [List.length_append] at this
      simpa [choose_loop, List.append_assoc] using this

/-- `choose_subtree` succeeds exactly on nonempty children lists, and the
chosen index is in range. -/
theorem choose_subtree_isSome {cs : List RTreeNode} (b : Rectangle) (hne : cs ≠ []) :
    ∃ i, choose_subtree cs b = some i ∧ i < cs.length := by
  have := StInv_loop b cs [] none rfl
  simp only [List.nil_append, List.length_nil] at this
  unfold choose_subtree
  cases hres : choose_loop b cs 0 none with
  | none =>
      rw [hres] at this
      exact absurd this hne
  | some p =>
      obtain ⟨i, mi, ma⟩ := p
      rw [hres] at this
      obtain ⟨hi, _⟩ := this
      exact ⟨i, rfl, hi⟩

theorem choose_subtree_nil (b : Rectangle) : choose_subtree [] b = none := by
  simp [choose_subtree, choose_loop]

/-- Full specification of `choose_subtree`: the chosen child minimizes the
area increase, and among minimal increases has minimal current area. -/
theorem choose_subtree_min {cs : List RTreeNode} (b : Rectangle) (hne : cs ≠ []) :
    ∃ i, ∃ h : i < cs.length, choose_subtree cs b = some i ∧
      ∀ c ∈ cs, (cs.get ⟨i, h⟩).mbr.area_increase b ≤ c.mbr.area_increase b ∧
        (c.mbr.area_increase b = (cs.get ⟨i, h⟩).mbr.area_increase b →
          (cs.get ⟨i, h⟩).mbr.area ≤ c.mbr.area) := by
  have hinv := StInv_loop b cs [] none rfl
  simp only [List.nil_append, List.length_nil] at hinv
  unfold choose_subtree
  cases hres : choose_loop b cs 0 none with
  | none =>
      rw [hres] at hinv
      exact absurd hinv hne
  | some p =>
      obtain ⟨i, mi, ma⟩ := p
      rw [hres] at hinv
      obtain ⟨hi, hmi, hma, hmin⟩ := hinv
      refine ⟨i, hi, rfl, ?_⟩
      intro c hc
      have := hmin c hc
      rw [← hmi, ← hma]
      exact this

/-! ### Split arithmetic -/

theorem splitIndex_bounds {n m : ℕ} (hn : 2 ≤ n) :
    1 ≤ splitIndex n m ∧ splitIndex n m ≤ n - 1 := by
  simp only [splitIndex]
  split_ifs <;> omega

theorem splitIndex_min_entries {n m : ℕ} (hn : 2 ≤ n) (h : 2 * m ≤ n) :
    m ≤ splitIndex n m ∧ m ≤ n - splitIndex n m := by
  simp only [splitIndex]
  split_ifs <;> omega

theorem splitIndex_small {n m : ℕ} (hn : 2 ≤ n) (h : n ≤ 2 * m) :
    splitIndex n m = (n + 1) / 2 := by
  simp only [splitIndex]
  split_ifs <;> omega

theorem splitIndex_large {n m : ℕ} (hn : 2 ≤ n) (h : 2 * m < n) :
    splitIndex n m = n / 2 := by
  simp only [splitIndex]
  split_ifs <;> omega

theorem split_node_leaf (m : ℕ) (r : Rectangle) (es : List DataItem) :
    split_node m (.leaf r es) =
      (.leaf (mbr_of_entries (es.take (splitIndex es.length m)))
         (es.take (splitIndex es.length m)),
       .leaf (mbr_of_entries (es.drop (splitIndex es.length m)))
         (es.drop (splitIndex es.length m))) := rfl

theorem split_node_node (m : ℕ) (r : Rectangle) (cs : List RTreeNode) :
    split_node m (.node r cs) =
      (.node (mbr_of_children (cs.take (splitIndex cs.length m)))
         (cs.take (splitIndex cs.length m)),
       .node (mbr_of_children (cs.drop (splitIndex cs.length m)))
         (cs.drop (splitIndex cs.length m))) := rfl

/-! ### Characterization of `insert_child` -/

theorem insert_child_eq (minE maxE : ℕ) (item : DataItem) :
    ∀ (cs : List RTreeNode) (i : ℕ), ∀ hi : i < cs.length,
      insert_child minE maxE item cs i =
        match insert_recursive minE maxE item cs[i] with
        | none => none
        | some (c1, osib) => some (cs.set i c1, osib) := by
  intro cs
  induction cs with
  | nil => intro i hi; cases hi
  | cons c rest ih =>
      intro i hi
      cases i with
      | zero =>
          simp only [insert_child, List.getElem_cons_zero]
          cases insert_recursive minE maxE item c with
          | none => rfl
          | some p => obtain ⟨c1, osib⟩ := p; rfl
      | succ j =>
          have hj : j < rest.length := by simpa using hi
          simp only [insert_child, List.getElem_cons_succ]
          rw [ih j hj]
          cases insert_recursive minE maxE item rest[j] with
          | none => rfl
          | some p => obtain ⟨c1, osib⟩ := p; rfl

/-! ### Helpers for the insertion proof -/

/-- Items contributed by an optional split sibling. -/
def extraItems : Option RTreeNode → List DataItem
  | none => []
  | some s => s.items

theorem cover_expand {r b : Rectangle} {it : DataItem}
    (h : it.bounds.validR → subsetR it.bounds r) :
    it.bounds.validR → subsetR it.bounds (r.expand b) := fun hv =>
  subsetR_trans (h hv) (subsetR_expand_left b (validR_of_subsetR (h hv) hv))

theorem cover_mbr_of_children {maxE : ℕ} {part : List RTreeNode}
    (hInvAll : ∀ d ∈ part, Inv maxE d) :
    ∀ d ∈ part, ∀ it ∈ d.items, it.bounds.validR →
      subsetR it.bounds (mbr_of_children part) := by
  intro d hd it hit hv
  have h1 := (hInvAll d hd).cov it hit hv
  exact subsetR_trans h1 (subsetR_mbr_of_children hd (validR_of_subsetR h1 hv))

theorem perm_shape {α : Type} (A B X S Y : List α) (a : α)
    (h : (X ++ S).Perm (Y ++ [a])) :
    ((A ++ X ++ B) ++ S).Perm ((A ++ Y ++ B) ++ [a]) := by
  have h2 : (↑X + ↑S : Multiset α) = ↑Y + ↑[a] := by
    have := Multiset.coe_eq_coe.mpr h
    simpa [← Multiset.coe_add] using this
  refine Multiset.coe_eq_coe.mp ?_
  simp only [← Multiset.coe_add]
  calc (↑A + ↑X + ↑B + ↑S : Multiset α)
      = ↑A + ↑B + (↑X + ↑S) := by abel
    _ = ↑A + ↑B + (↑Y + ↑[a]) := by rw [h2]
    _ = ↑A + ↑Y + ↑B + ↑[a] := by abel

theorem items_decomp {cs : List RTreeNode} {i : ℕ} (hi : i < cs.length) :
    cs.flatMap RTreeNode.items =
      (cs.take i).flatMap RTreeNode.items ++ cs[i].items ++
        (cs.drop (i + 1)).flatMap RTreeNode.items := by
  conv_rhs => rw [List.append_assoc]
  conv_lhs => rw [← List.take_append_drop i cs, List.drop_eq_getElem_cons hi]
  rw [List.flatMap_append, List.flatMap_cons]

theorem items_set_decomp {cs : List RTreeNode} {i : ℕ} (hi : i < cs.length)
    (c1 : RTreeNode) :
    (cs.set i c1).flatMap RTreeNode.items =
      (cs.take i).flatMap RTreeNode.items ++ c1.items ++
        (cs.drop (i + 1)).flatMap RTreeNode.items := by
  rw [List.set_eq_take_cons_drop _ hi]
  simp [List.flatMap_append, List.append_assoc]

/-- Main preservation lemma for `insert_recursive`: under the invariant the
recursive insert never fails, the resulting node and the possible new
sibling satisfy the invariant again, and together they store exactly the
old items plus the inserted one (as a permutation). -/
theorem insert_recursive_spec {minE maxE : ℕ} (hmax : 3 ≤ maxE) (item : DataItem) :
    ∀ n, Inv maxE n →
      ∃ n1 osib, insert_recursive minE maxE item n = some (n1, osib) ∧
        Inv maxE n1 ∧ (∀ s, osib = some s → Inv maxE s) ∧
        (n1.items ++ extraItems osib).Perm (n.items ++ [item]) := by
  refine RTreeNode.my_ind _ (fun r es => ?_) (fun r cs ih => ?_)
  · intro hInv
    obtain ⟨hlen, hcov⟩ := (Inv_leaf_iff maxE r es).mp hInv
    by_cases hfull : maxE ≤ (es ++ [item]).length
    · -- the leaf overflows and splits
      have hn : (es ++ [item]).length = maxE := by
        rw [List.length_append] at hfull ⊢
        simp only [List.length_cons, List.length_nil] at hfull ⊢
        omega
      have h2 : 2 ≤ (es ++ [item]).length := by omega
      obtain ⟨hsi1, hsi2⟩ := splitIndex_bounds (m := minE) h2
      refine ⟨.leaf (mbr_of_entries ((es ++ [item]).take (splitIndex (es ++ [item]).length minE)))
          ((es ++ [item]).take (splitIndex (es ++ [item]).length minE)),
        some (.leaf (mbr_of_entries ((es ++ [item]).drop (splitIndex (es ++ [item]).length minE)))
          ((es ++ [item]).drop (splitIndex (es ++ [item]).length minE))), ?_, ?_, ?_, ?_⟩
      · simp only [insert_recursive]
        rw [if_pos hfull, split_node_leaf]
      · refine (Inv_leaf_iff _ _ _).mpr ⟨?_, ?_⟩
        · rw [List.length_take]
          omega
        · intro it hit hv
          exact subsetR_mbr_of_entries hit hv
      · intro s hs
        injection hs with hs
        subst hs
        refine (Inv_leaf_iff _ _ _).mpr ⟨?_, ?_⟩
        · rw [List.length_drop]
          omega
        · intro it hit hv
          exact subsetR_mbr_of_entries hit hv
      · rw [items_leaf]
        show (_ ++ extraItems (some _)).Perm _
        rw [extraItems, items_leaf, List.take_append_drop, items_leaf]
    · -- the leaf still has room
      refine ⟨.leaf (r.expand item.bounds) (es ++ [item]), none, ?_, ?_, ?_, ?_⟩
      · simp only [insert_recursive]
        rw [if_neg hfull]
      · refine (Inv_leaf_iff _ _ _).mpr ⟨?_, ?_⟩
        · rw [List.length_append] at hfull ⊢
          simp only [List.length_cons, List.length_nil] at hfull ⊢
          omega
        · intro it hit hv
          rcases List.mem_append.mp hit with hit2 | hit2
          · exact cover_expand (hcov it hit2) hv
          · rcases List.mem_singleton.mp hit2 with rfl
            exact subsetR_expand_right r hv
      · intro s hs
        cases hs
      · rw [items_leaf]
        show (_ ++ extraItems none).Perm _
        rw [extraItems, List.append_nil, items_leaf]
  · intro hInv
    obtain ⟨hlocal, hsub⟩ := (Inv_node_iff maxE r cs).mp hInv
    obtain ⟨hne, hlen, hcov⟩ := hlocal
    obtain ⟨i, hchoose, hilt⟩ := choose_subtree_isSome item.bounds hne
    have hcmem : cs[i] ∈ cs := List.getElem_mem hilt
    obtain ⟨c1, osib, hrec, hInv1, hInvS, hperm⟩ := ih cs[i] hcmem (hsub _ hcmem)
    have hmemsplit : ∀ it ∈ c1.items ++ extraItems osib, it ∈ cs[i].items ∨ it = item := by
      intro it hit
      have h2 := hperm.mem_iff.mp hit
      rcases List.mem_append.mp h2 with h3 | h3
      · exact Or.inl h3
      · exact Or.inr (List.mem_singleton.mp h3)
    have hcov_new : ∀ it, (it ∈ cs[i].items ∨ it = item) → it.bounds.validR →
        subsetR it.bounds (r.expand item.bounds) := by
      intro it hcase hv
      rcases hcase with h3 | rfl
      · exact cover_expand (hcov _ hcmem it h3) hv
      · exact subsetR_expand_right r hv
    have hcov_old : ∀ d ∈ cs, ∀ it ∈ d.items, it.bounds.validR →
        subsetR it.bounds (r.expand item.bounds) :=
      fun d hd it hit hv => cover_expand (hcov d hd it hit) hv
    have hcov_set : ∀ d ∈ cs.set i c1, ∀ it ∈ d.items, it.bounds.validR →
        subsetR it.bounds (r.expand item.bounds) := by
      intro d hd it hit hv
      rcases List.mem_or_eq_of_mem_set hd with hd2 | rfl
      · exact hcov_old d hd2 it hit hv
      · exact hcov_new it (hmemsplit it (List.mem_append_left _ hit)) hv
    have hInv_set : ∀ d ∈ cs.set i c1, Inv maxE d := by
      intro d hd
      rcases List.mem_or_eq_of_mem_set hd with hd2 | rfl
      · exact hsub d hd2
      · exact hInv1
    cases osib with
    | none =>
        refine ⟨.node (r.expand item.bounds) (cs.set i c1), none, ?_, ?_, ?_, ?_⟩
        · simp only [insert_recursive, hchoose]
          rw [insert_child_eq minE maxE item cs i hilt]
          simp only [hrec]
        · refine (Inv_node_iff _ _ _).mpr ⟨⟨?_, ?_, hcov_set⟩, hInv_set⟩
          · have : (cs.set i c1).length = cs.length := by simp
            intro hnil
            rw [hnil] at this
            simp at this
            omega
          · simpa using hlen
        · intro s hs
          cases hs
        · rw [items_node, items_set_decomp hilt]
          show (_ ++ extraItems none).Perm _
          rw [extraItems, List.append_nil, items_node, items_decomp hilt]
          have hps := perm_shape ((cs.take i).flatMap RTreeNode.items)
            ((cs.drop (i + 1)).flatMap RTreeNode.items) c1.items [] cs[i].items item
            (by simpa [extraItems] using hperm)
          simpa using hps
    | some sib =>
        have hperm2 : (c1.items ++ sib.items).Perm (cs[i].items ++ [item]) := by
          simpa [extraItems] using hperm
        have hInvSib : Inv maxE sib := hInvS sib rfl
        have hc2len : (cs.set i c1 ++ [sib]).length = cs.length + 1 := by simp
        have hsub2 : ∀ d ∈ cs.set i c1 ++ [sib], Inv maxE d := by
          intro d hd
          rcases List.mem_append.mp hd with hd2 | hd2
          · exact hInv_set d hd2
          · rcases List.mem_singleton.mp hd2 with rfl
            exact hInvSib
        by_cases hfull : maxE ≤ (cs.set i c1 ++ [sib]).length
        · -- the current node overflows in turn and splits
          have hfull2 : maxE ≤ cs.length + 1 := by rw [hc2len] at hfull; exact hfull
          have hn2 : cs.length + 1 = maxE := by omega
          have h2 : 2 ≤ cs.length + 1 := by omega
          obtain ⟨hsi1, hsi2⟩ := splitIndex_bounds (m := minE) h2
          refine ⟨.node (mbr_of_children ((cs.set i c1 ++ [sib]).take
              (splitIndex (cs.set i c1 ++ [sib]).length minE)))
              ((cs.set i c1 ++ [sib]).take (splitIndex (cs.set i c1 ++ [sib]).length minE)),
            some (.node (mbr_of_children ((cs.set i c1 ++ [sib]).drop
              (splitIndex (cs.set i c1 ++ [sib]).length minE)))
              ((cs.set i c1 ++ [sib]).drop (splitIndex (cs.set i c1 ++ [sib]).length minE))),
            ?_, ?_, ?_, ?_⟩
          · simp only [insert_recursive, hchoose]
            rw [insert_child_eq minE maxE item cs i hilt]
            simp only [hrec]
            rw [if_pos hfull, split_node_node]
          · refine (Inv_node_iff _ _ _).mpr ⟨⟨?_, ?_, ?_⟩, ?_⟩
            · refine List.length_pos.mp ?_
              rw [List.length_take, hc2len]
              omega
            · rw [List.length_take, hc2len]
              omega
            · exact cover_mbr_of_children fun d hd => hsub2 d (List.take_subset _ _ hd)
            · exact fun d hd => hsub2 d (List.take_subset _ _ hd)
          · intro s hs
            injection hs with hs
            subst hs
            refine (Inv_node_iff _ _ _).mpr ⟨⟨?_, ?_, ?_⟩, ?_⟩
            · refine List.length_pos.mp ?_
              rw [List.length_drop, hc2len]
              omega
            · rw [List.length_drop, hc2len]
              omega
            · exact cover_mbr_of_children fun d hd => hsub2 d (List.drop_subset _ _ hd)
            · exact fun d hd => hsub2 d (List.drop_subset _ _ hd)
          · rw [items_node]
            show (_ ++ extraItems (some _)).Perm _
            rw [extraItems, items_node, ← List.flatMap_append, List.take_append_drop,
              List.flatMap_append, items_set_decomp hilt, items_node, items_decomp hilt]
            have hps := perm_shape ((cs.take i).flatMap RTreeNode.items)
              ((cs.drop (i + 1)).flatMap RTreeNode.items) c1.items
              ([sib].flatMap RTreeNode.items) cs[i].items item
              (by simpa using hperm2)
            simpa using hps
        · -- the sibling fits in the current node
          refine ⟨.node (r.expand item.bounds) (cs.set i c1 ++ [sib]), none, ?_, ?_, ?_, ?_⟩
          · simp only [insert_recursive, hchoose]
            rw [insert_child_eq minE maxE item cs i hilt]
            simp only [hrec]
            rw [if_neg hfull]
          · refine (Inv_node_iff _ _ _).mpr ⟨⟨?_, ?_, ?_⟩, hsub2⟩
            · simp
            · rw [hc2len]
              rw [hc2len] at hfull
              omega
            · intro d hd it hit hv
              rcases List.mem_append.mp hd with hd2 | hd2
              · exact hcov_set d hd2 it hit hv
              · rcases List.mem_singleton.mp hd2 with rfl
                exact hcov_new it (hmemsplit it
                  (by rw [extraItems]; exact List.mem_append_right _ hit)) hv
          · intro s hs
            cases hs
          · rw [items_node]
            show (_ ++ extraItems none).Perm _
            rw [extraItems, List.append_nil, List.flatMap_append,
              items_set_decomp hilt, items_node, items_decomp hilt]
            have hps := perm_shape ((cs.take i).flatMap RTreeNode.items)
              ((cs.drop (i + 1)).flatMap RTreeNode.items) c1.items
              ([sib].flatMap RTreeNode.items) cs[i].items item
              (by simpa using hperm2)
            simpa using hps

/-! ### Tree-level invariant and specifications -/

/-- The tree-level invariant: the constructor guarantees `3 ≤ max_entries`,
and the root satisfies the hereditary node invariant. -/
def treeInv (t : RTree) : Prop := 3 ≤ t.max_entries ∧ Inv t.max_entries t.root

theorem treeInv_new (minE maxE : ℕ) : treeInv (RTree.new minE maxE) := by
  constructor
  · show 3 ≤ max 3 _
    exact le_max_left _ _
  · refine (Inv_leaf_iff _ _ _).mpr ⟨?_, ?_⟩
    · show 0 < max 3 _
      have : (3 : ℕ) ≤ max 3 (max 2 minE * 2) := le_max_left _ _
      omega
    · intro it hit
      cases hit

theorem insert_spec {t : RTree} (h : treeInv t) (item : DataItem) :
    ∃ t1, t.insert item = some t1 ∧ treeInv t1 ∧
      t1.min_entries = t.min_entries ∧ t1.max_entries = t.max_entries ∧
      t1.root.items.Perm (t.root.items ++ [item]) := by
  obtain ⟨hmax, hInv⟩ := h
  obtain ⟨n1, osib, hrec, hInv1, hInvS, hperm⟩ := insert_recursive_spec hmax item t.root hInv
  unfold RTree.insert
  rw [hrec]
  cases osib with
  | none =>
      refine ⟨⟨n1, t.min_entries, t.max_entries⟩, rfl, ⟨hmax, hInv1⟩, rfl, rfl, ?_⟩
      simpa [extraItems] using hperm
  | some sib =>
      have hInvSib := hInvS sib rfl
      refine ⟨⟨.node (Rectangle.combine n1.mbr sib.mbr) [n1, sib],
        t.min_entries, t.max_entries⟩, rfl, ⟨hmax, ?_⟩, rfl, rfl, ?_⟩
      · refine (Inv_node_iff _ _ _).mpr ⟨⟨by simp, by simp; omega, ?_⟩, ?_⟩
        · intro d hd it hit hv
          rcases List.mem_cons.mp hd with rfl | hd2
          · have h1 := hInv1.cov it hit hv
            exact subsetR_trans h1
              (subsetR_combine_left _ (validR_of_subsetR h1 hv))
          · rcases List.mem_singleton.mp hd2 with rfl
            have h1 := hInvSib.cov it hit hv
            exact subsetR_trans h1
              (subsetR_combine_right _ (validR_of_subsetR h1 hv))
        · intro d hd
          rcases List.mem_cons.mp hd with rfl | hd2
          · exact hInv1
          · rcases List.mem_singleton.mp hd2 with rfl
            exact hInvSib
      · show (RTreeNode.node _ [n1, sib]).items.Perm _
        rw [items_node]
        have : [n1, sib].flatMap RTreeNode.items = n1.items ++ sib.items := by
          simp
        rw [this]
        simpa [extraItems] using hperm

theorem insertList_spec {t : RTree} (h : treeInv t) (xs : List DataItem) :
    ∃ t1, insertList t xs = some t1 ∧ treeInv t1 ∧
      t1.min_entries = t.min_entries ∧ t1.max_entries = t.max_entries ∧
      t1.root.items.Perm (t.root.items ++ xs) := by
  induction xs generalizing t with
  | nil =>
      refine ⟨t, rfl, h, rfl, rfl, ?_⟩
      rw [List.append_nil]
  | cons x rest ih =>
      obtain ⟨t2, hins, hinv2, hmin2, hmax2, hperm2⟩ := insert_spec h x
      obtain ⟨t1, hlist, hinv1, hmin1, hmax1, hperm1⟩ := ih hinv2
      refine ⟨t1, ?_, hinv1, by rw [hmin1, hmin2], by rw [hmax1, hmax2], ?_⟩
      · show List.foldlM RTree.insert t (x :: rest) = some t1
        rw [List.foldlM_cons, hins]
        exact hlist
      · have h3 := hperm1.trans (hperm2.append_right rest)
        rw [List.append_assoc, List.singleton_append] at h3
        exact h3

/-- Top-level search computes the intersection filter of the stored items,
under the invariant and validity of all stored bounds. -/
theorem search_eq_filter_tree {t : RTree} (h : treeInv t)
    (hval : ∀ it ∈ t.root.items, it.bounds.validR) (q : Rectangle) :
    t.search q = t.root.items.filter fun it => it.bounds.intersects q := by
  unfold RTree.search
  by_cases hint : t.root.mbr.intersects q = true
  · rw [if_pos hint]
    exact search_recursive_eq_filter q t.root h.2 hval
  · rw [if_neg hint]
    symm
    rw [List.filter_eq_nil_iff]
    intro it hit hq
    exact hint (intersects_of_subsetR (h.2.cov it hit (hval it hit)) (hval it hit) hq)

theorem mem_items_of_mem_search_tree {t : RTree} {q : Rectangle} {it : DataItem}
    (h : it ∈ t.search q) : it ∈ t.root.items := by
  unfold RTree.search at h
  by_cases hint : t.root.mbr.intersects q = true
  · rw [if_pos hint] at h
    exact mem_items_of_mem_search t.root h
  · rw [if_neg hint] at h
    cases h

/-! ### The claims -/

/-- C1, counterexample: the claim fails as stated.  The item with bounds
(2,0)-(1,1) (invalid: min.x > max.x) is inserted; its bounds intersect the
query (1,0)-(2,1) according to the program's own `intersects` test, yet
`search` returns the empty list, because `expand` ignores invalid bounds
and so the item is never reflected in any cached mbr, and the root test
prunes the whole tree. -/
theorem C1_counterexample :
    ∃ t, insertList (RTree.new 2 4) [⟨2, "inv", 0, ⟨⟨2, 0⟩, ⟨1, 1⟩⟩⟩] = some t ∧
      Rectangle.intersects ⟨⟨2, 0⟩, ⟨1, 1⟩⟩ ⟨⟨1, 0⟩, ⟨2, 1⟩⟩ = true ∧
      t.search ⟨⟨1, 0⟩, ⟨2, 1⟩⟩ = [] := by
  refine ⟨⟨.leaf Rectangle.default0 [⟨2, "inv", 0, ⟨⟨2, 0⟩, ⟨1, 1⟩⟩⟩], 2, 4⟩,
    ?_, by decide, ?_⟩
  · norm_num [insertList, RTree.new, RTree.insert, insert_recursive,
      Rectangle.expand, Rectangle.default0]
  · norm_num [RTree.search, Rectangle.intersects, Rectangle.default0, RTreeNode.mbr]

/-- C1 (amended): for every sequence of inserts of items whose bounds are
valid (min ≤ max on both axes) into a freshly constructed tree, and every
query rectangle, `search` returns exactly the inserted items whose bounds
intersect the query (a permutation of the filtered insertion sequence),
regardless of tree shape and splits.  For items with invalid bounds the
guarantee fails (see the counterexample). -/
theorem C1_search_exact (minE maxE : ℕ) (xs : List DataItem) (q : Rectangle)
    (hv : ∀ it ∈ xs, it.bounds.validR) :
    ∃ t, insertList (RTree.new minE maxE) xs = some t ∧
      (t.search q).Perm (xs.filter fun it => it.bounds.intersects q) := by
  obtain ⟨t, hins, hinv, _, _, hperm⟩ := insertList_spec (treeInv_new minE maxE) xs
  have hitems : t.root.items.Perm xs := by
    simpa [RTree.new, items_leaf] using hperm
  have hval2 : ∀ it ∈ t.root.items, it.bounds.validR := fun it hit =>
    hv it (hitems.mem_iff.mp hit)
  refine ⟨t, hins, ?_⟩
  rw [search_eq_filter_tree hinv hval2 q]
  exact hitems.filter _

/-- C1, witness for the amended theorem at a concrete input. -/
theorem C1_witness :
    (∀ it ∈ ([⟨1, "a", 5, ⟨⟨0, 0⟩, ⟨1, 1⟩⟩⟩] : List DataItem), it.bounds.validR) ∧
    (∃ t, insertList (RTree.new 2 4) [⟨1, "a", 5, ⟨⟨0, 0⟩, ⟨1, 1⟩⟩⟩] = some t ∧
      (t.search ⟨⟨0, 0⟩, ⟨2, 2⟩⟩).Perm
        (([⟨1, "a", 5, ⟨⟨0, 0⟩, ⟨1, 1⟩⟩⟩] : List DataItem).filter
          fun it => it.bounds.intersects ⟨⟨0, 0⟩, ⟨2, 2⟩⟩)) :=
  ⟨by decide, C1_search_exact 2 4 _ _ (by decide)⟩

/-- C2, code-bug evaluation at the failing input: insert a single item with
bounds (5,5)-(6,6) into a fresh tree.  The cached root mbr becomes
(0,0)-(6,6) — the default-constructed mbr (0,0)-(0,0) passes the
`min ≤ max` validity test inside `expand`, although the source comments
call it "invalid state" — while the union of the leaf's entries, which the
claim (and `update_mbr`) prescribe, is (5,5)-(6,6). -/
theorem C2_mbr_not_tight :
    ∃ t, insertList (RTree.new 2 4) [⟨1, "A", 0, ⟨⟨5, 5⟩, ⟨6, 6⟩⟩⟩] = some t ∧
      t.root.mbr = ⟨⟨0, 0⟩, ⟨6, 6⟩⟩ ∧
      t.root.items = [⟨1, "A", 0, ⟨⟨5, 5⟩, ⟨6, 6⟩⟩⟩] ∧
      mbr_of_entries [⟨1, "A", 0, ⟨⟨5, 5⟩, ⟨6, 6⟩⟩⟩] = ⟨⟨5, 5⟩, ⟨6, 6⟩⟩ ∧
      t.root.mbr ≠ mbr_of_entries t.root.items := by
  refine ⟨⟨.leaf ⟨⟨0, 0⟩, ⟨6, 6⟩⟩ [⟨1, "A", 0, ⟨⟨5, 5⟩, ⟨6, 6⟩⟩⟩], 2, 4⟩, ?_, rfl, ?_, rfl, ?_⟩
  · norm_num [insertList, RTree.new, RTree.insert, insert_recursive,
      Rectangle.expand, Rectangle.default0]
  · exact items_leaf _ _
  · rw [items_leaf]
    decide

/-- C3, counterexample to the `t = 0` clause: a stored item may carry a
negative population (`long` is signed and the core accepts any value), and
then `search_with_population(Q, 0)` drops it while `search(Q)` returns it. -/
theorem C3_counterexample :
    ∃ t, insertList (RTree.new 2 4) [⟨3, "C", -1, ⟨⟨0, 0⟩, ⟨1, 1⟩⟩⟩] = some t ∧
      t.search ⟨⟨0, 0⟩, ⟨1, 1⟩⟩ = [⟨3, "C", -1, ⟨⟨0, 0⟩, ⟨1, 1⟩⟩⟩] ∧
      t.search_with_population ⟨⟨0, 0⟩, ⟨1, 1⟩⟩ 0 = [] := by
  refine ⟨⟨.leaf ⟨⟨0, 0⟩, ⟨1, 1⟩⟩ [⟨3, "C", -1, ⟨⟨0, 0⟩, ⟨1, 1⟩⟩⟩], 2, 4⟩, ?_, ?_, ?_⟩
  · norm_num [insertList, RTree.new, RTree.insert, insert_recursive,
      Rectangle.expand, Rectangle.default0]
  · norm_num [RTree.search, search_recursive, Rectangle.intersects, RTreeNode.mbr]
  · norm_num [RTree.search_with_population, search_pop_recursive,
      Rectangle.intersects, RTreeNode.mbr]

/-- C3 (amended): for every tree state, query and threshold,
`search_with_population(Q, t)` is exactly `search(Q)` filtered by
`population ≥ t` (the filtered subsequence of the same traversal); and it
equals `search(Q)` whenever the threshold is at most every stored
population (in particular for t = 0 when all stored populations are
non-negative; an inserted negative population defeats the bare t = 0
claim, see the counterexample). -/
theorem C3_population_filter (t : RTree) (q : Rectangle) (p : ℤ) :
    t.search_with_population q p =
      (t.search q).filter (fun it => decide (p ≤ it.population)) ∧
    ((∀ it ∈ t.root.items, p ≤ it.population) →
      t.search_with_population q p = t.search q) := by
  have hmain : t.search_with_population q p =
      (t.search q).filter (fun it => decide (p ≤ it.population)) := by
    unfold RTree.search RTree.search_with_population
    by_cases hint : t.root.mbr.intersects q = true
    · rw [if_pos hint, if_pos hint]
      exact search_pop_eq_filter q p t.root
    · rw [if_neg hint, if_neg hint]
      rfl
  refine ⟨hmain, fun hall => ?_⟩
  rw [hmain]
  rw [List.filter_eq_self]
  intro it hit
  exact decide_eq_true (hall it (mem_items_of_mem_search_tree hit))

/-- C3, witness for the amended theorem at a concrete tree state. -/
theorem C3_witness :
    (∀ it ∈ (⟨.leaf ⟨⟨0, 0⟩, ⟨1, 1⟩⟩ [⟨1, "a", 5, ⟨⟨0, 0⟩, ⟨1, 1⟩⟩⟩], 2, 4⟩ :
        RTree).root.items, (0 : ℤ) ≤ it.population) ∧
    (⟨.leaf ⟨⟨0, 0⟩, ⟨1, 1⟩⟩ [⟨1, "a", 5, ⟨⟨0, 0⟩, ⟨1, 1⟩⟩⟩], 2, 4⟩ :
        RTree).search_with_population ⟨⟨0, 0⟩, ⟨1, 1⟩⟩ 0 =
      (⟨.leaf ⟨⟨0, 0⟩, ⟨1, 1⟩⟩ [⟨1, "a", 5, ⟨⟨0, 0⟩, ⟨1, 1⟩⟩⟩], 2, 4⟩ :
        RTree).search ⟨⟨0, 0⟩, ⟨1, 1⟩⟩ := by
  have hall : ∀ it ∈ (⟨.leaf ⟨⟨0, 0⟩, ⟨1, 1⟩⟩ [⟨1, "a", 5, ⟨⟨0, 0⟩, ⟨1, 1⟩⟩⟩], 2, 4⟩ :
      RTree).root.items, (0 : ℤ) ≤ it.population := by
    intro it hit
    rw [show (⟨.leaf ⟨⟨0, 0⟩, ⟨1, 1⟩⟩ [⟨1, "a", 5, ⟨⟨0, 0⟩, ⟨1, 1⟩⟩⟩], 2, 4⟩ :
        RTree).root.items = [⟨1, "a", 5, ⟨⟨0, 0⟩, ⟨1, 1⟩⟩⟩] from items_leaf _ _] at hit
    rcases List.mem_singleton.mp hit with rfl
    decide
  exact ⟨hall, (C3_population_filter _ _ _).2 hall⟩

/-- An invalid rectangle never intersects itself: the axis on which
min > max separates the rectangle from itself.  (This is the only fragment
of the invalid-never-intersects contract that the implementation does
satisfy; see `C4_invalid_intersects_eval`.) -/
theorem intersects_self_false_of_invalidR (r : Rectangle) (h : r.invalidR) :
    r.intersects r = false := by
  unfold Rectangle.intersects
  rcases h with h | h
  · rw [if_pos (Or.inl h)]
  · rw [if_pos (Or.inr (Or.inr (Or.inl h)))]

/-- C4, code-bug evaluation at failing inputs.  `Rectangle::intersects`
performs the raw separating-axis test with no validity check, so the
invalid rectangle (5,5)-(4,4) — the test-suite's own `r_invalid`
(src/test.cpp:39), asserted with the comment "Intersection with invalid is
false" (src/test.cpp:65) — intersects (0,0)-(10,10) in both argument
orders; consequently an item stored with invalid bounds (2,0)-(1,1) is
returned by a search with query (0,0)-(3,3). -/
theorem C4_invalid_intersects_eval :
    Rectangle.invalidR ⟨⟨5, 5⟩, ⟨4, 4⟩⟩ ∧
    Rectangle.intersects ⟨⟨5, 5⟩, ⟨4, 4⟩⟩ ⟨⟨0, 0⟩, ⟨10, 10⟩⟩ = true ∧
    Rectangle.intersects ⟨⟨0, 0⟩, ⟨10, 10⟩⟩ ⟨⟨5, 5⟩, ⟨4, 4⟩⟩ = true ∧
    (∃ t, insertList (RTree.new 2 4) [⟨9, "inv", 0, ⟨⟨2, 0⟩, ⟨1, 1⟩⟩⟩] = some t ∧
      t.search ⟨⟨0, 0⟩, ⟨3, 3⟩⟩ = [⟨9, "inv", 0, ⟨⟨2, 0⟩, ⟨1, 1⟩⟩⟩]) := by
  refine ⟨by decide, by decide, by decide,
    ⟨.leaf Rectangle.default0 [⟨9, "inv", 0, ⟨⟨2, 0⟩, ⟨1, 1⟩⟩⟩], 2, 4⟩, ?_, ?_⟩
  · norm_num [insertList, RTree.new, RTree.insert, insert_recursive,
      Rectangle.expand, Rectangle.default0]
  · norm_num [RTree.search, search_recursive, Rectangle.intersects,
      Rectangle.default0, RTreeNode.mbr]

/-- C5, counterexample: for invalid `u` and valid `x` with positive area,
`u.area_increase(x)` is `x.area()`, not 0; and `combine` of two invalid
rectangles is the default rectangle (0,0)-(0,0), which satisfies
`min ≤ max` — a degenerate valid point box, not an invalid one. -/
theorem C5_counterexample :
    Rectangle.invalidR ⟨⟨1, 1⟩, ⟨0, 0⟩⟩ ∧
    Rectangle.area_increase ⟨⟨1, 1⟩, ⟨0, 0⟩⟩ ⟨⟨0, 0⟩, ⟨2, 2⟩⟩ ≠ 0 ∧
    ¬ Rectangle.invalidR (Rectangle.combine ⟨⟨1, 1⟩, ⟨0, 0⟩⟩ ⟨⟨1, 1⟩, ⟨0, 0⟩⟩) := by
  refine ⟨by decide, ?_, by decide⟩
  norm_num [Rectangle.area_increase, Rectangle.combine, Rectangle.area]

/-- C5 (amended): `combine(valid, invalid) = valid` in both argument
orders; `combine(invalid, invalid)` is the default rectangle (0,0)-(0,0)
(a valid degenerate point box, not an invalid rectangle);
`x.area_increase(invalid) = 0` for every `x`; and
`invalid.area_increase(x)` equals 0 when `x` is invalid and `x.area()`
otherwise (so it is 0 only for invalid or zero-area `x`). -/
theorem C5_invalid_algebra (v u x : Rectangle) (hv : v.validR) (hu : u.invalidR) :
    Rectangle.combine v u = v ∧ Rectangle.combine u v = v ∧
    x.area_increase u = 0 ∧
    u.area_increase x = (if x.invalidR then 0 else x.area) ∧
    ∀ u2, u2.invalidR → Rectangle.combine u u2 = Rectangle.default0 := by
  have hv2 : ¬ (v.min_corner.x > v.max_corner.x ∨ v.min_corner.y > v.max_corner.y) :=
    (validR_iff_not_invalidR v).mp hv
  have hu2 : u.min_corner.x > u.max_corner.x ∨ u.min_corner.y > u.max_corner.y := hu
  refine ⟨?_, ?_, ?_, ?_, ?_⟩
  · unfold Rectangle.combine
    rw [if_neg (fun hh => hv2 hh.1), if_neg hv2, if_pos hu2]
  · unfold Rectangle.combine
    rw [if_neg (fun hh => hv2 hh.2), if_pos hu2]
  · unfold Rectangle.area_increase
    rw [if_pos hu2]
  · unfold Rectangle.area_increase
    by_cases hx : x.invalidR
    · have hx2 : x.min_corner.x > x.max_corner.x ∨ x.min_corner.y > x.max_corner.y := hx
      rw [if_pos hx, if_pos hx2]
    · have hx2 : ¬ (x.min_corner.x > x.max_corner.x ∨ x.min_corner.y > x.max_corner.y) := hx
      rw [if_neg hx, if_neg hx2, if_pos hu2]
  · intro u2 hu22
    unfold Rectangle.combine
    rw [if_pos ⟨hu2, hu22⟩]

/-- C5, witness for the amended theorem. -/
theorem C5_witness :
    Rectangle.validR ⟨⟨0, 0⟩, ⟨1, 1⟩⟩ ∧ Rectangle.invalidR ⟨⟨1, 1⟩, ⟨0, 0⟩⟩ ∧
    (Rectangle.combine ⟨⟨0, 0⟩, ⟨1, 1⟩⟩ ⟨⟨1, 1⟩, ⟨0, 0⟩⟩ = ⟨⟨0, 0⟩, ⟨1, 1⟩⟩ ∧
     Rectangle.combine ⟨⟨1, 1⟩, ⟨0, 0⟩⟩ ⟨⟨0, 0⟩, ⟨1, 1⟩⟩ = ⟨⟨0, 0⟩, ⟨1, 1⟩⟩ ∧
     Rectangle.area_increase ⟨⟨0, 0⟩, ⟨2, 2⟩⟩ ⟨⟨1, 1⟩, ⟨0, 0⟩⟩ = 0 ∧
     Rectangle.area_increase ⟨⟨1, 1⟩, ⟨0, 0⟩⟩ ⟨⟨0, 0⟩, ⟨2, 2⟩⟩ =
       (if Rectangle.invalidR ⟨⟨0, 0⟩, ⟨2, 2⟩⟩ then 0
        else Rectangle.area ⟨⟨0, 0⟩, ⟨2, 2⟩⟩) ∧
     ∀ u2, u2.invalidR →
       Rectangle.combine ⟨⟨1, 1⟩, ⟨0, 0⟩⟩ u2 = Rectangle.default0) :=
  ⟨by decide, by decide, C5_invalid_algebra _ _ _ (by decide) (by decide)⟩

/-- C6: after any sequence of inserts into a freshly constructed tree, every
node of the tree (the root included, hence in particular every non-root
node) has `size() ≤ max_entries`.  (The proof maintains the stronger strict
bound `size < max_entries`: a node that reaches `max_entries` is split
within the same insertion.) -/
theorem C6_fanout_bound (minE maxE : ℕ) (xs : List DataItem) :
    ∃ t, insertList (RTree.new minE maxE) xs = some t ∧
      ∀ m ∈ subnodes t.root, m.size ≤ t.max_entries := by
  obtain ⟨t, hins, hinv, _, _, _⟩ := insertList_spec (treeInv_new minE maxE) xs
  refine ⟨t, hins, ?_⟩
  intro m hm
  have hl := hinv.2 m hm
  cases m with
  | leaf r es => exact le_of_lt hl.1
  | node r cs => exact le_of_lt hl.2.1

/-- C7, counterexample: splitting a leaf of size 5 with `min_entries = 2`
(reachable with `max_entries = 5`) keeps 2 entries in the original node and
moves 3 to the new sibling — for odd sizes above `2·min_entries` the
surplus goes to the NEW node, not the original. -/
theorem C7_counterexample :
    (split_node 2 (.leaf Rectangle.default0
      [⟨1, "a", 0, ⟨⟨0, 0⟩, ⟨1, 1⟩⟩⟩, ⟨2, "b", 0, ⟨⟨0, 0⟩, ⟨1, 1⟩⟩⟩,
       ⟨3, "c", 0, ⟨⟨0, 0⟩, ⟨1, 1⟩⟩⟩, ⟨4, "d", 0, ⟨⟨0, 0⟩, ⟨1, 1⟩⟩⟩,
       ⟨5, "e", 0, ⟨⟨0, 0⟩, ⟨1, 1⟩⟩⟩])).1.size = 2 ∧
    (split_node 2 (.leaf Rectangle.default0
      [⟨1, "a", 0, ⟨⟨0, 0⟩, ⟨1, 1⟩⟩⟩, ⟨2, "b", 0, ⟨⟨0, 0⟩, ⟨1, 1⟩⟩⟩,
       ⟨3, "c", 0, ⟨⟨0, 0⟩, ⟨1, 1⟩⟩⟩, ⟨4, "d", 0, ⟨⟨0, 0⟩, ⟨1, 1⟩⟩⟩,
       ⟨5, "e", 0, ⟨⟨0, 0⟩, ⟨1, 1⟩⟩⟩])).2.size = 3 := by
  refine ⟨by decide, by decide⟩

/-- C7 (amended): `split_node` divides the entries (leaf) or children
(internal) at the single positional index `splitIndex n min_entries`: the
original node keeps the prefix, the new sibling receives the suffix (and in
this embedding the moved children belong to the new sibling, which is
their parent by construction); both mbrs are recomputed as `update_mbr`
computes them; the index lies in [1, n-1]; each side receives at least
`min_entries` whenever `n ≥ 2·min_entries`; and the surplus for odd `n`
stays in the original node when `n ≤ 2·min_entries` (index `(n+1)/2`) but
goes to the new sibling when `n > 2·min_entries` (index `n/2`). -/
theorem C7_split_positional (m : ℕ) (r : Rectangle) (es : List DataItem)
    (cs : List RTreeNode) (hes : 2 ≤ es.length) (hcs : 2 ≤ cs.length) :
    (split_node m (.leaf r es) =
      (.leaf (mbr_of_entries (es.take (splitIndex es.length m)))
         (es.take (splitIndex es.length m)),
       .leaf (mbr_of_entries (es.drop (splitIndex es.length m)))
         (es.drop (splitIndex es.length m))) ∧
     1 ≤ splitIndex es.length m ∧ splitIndex es.length m ≤ es.length - 1 ∧
     (2 * m ≤ es.length →
       m ≤ splitIndex es.length m ∧ m ≤ es.length - splitIndex es.length m) ∧
     (es.length ≤ 2 * m → splitIndex es.length m = (es.length + 1) / 2) ∧
     (2 * m < es.length → splitIndex es.length m = es.length / 2)) ∧
    (split_node m (.node r cs) =
      (.node (mbr_of_children (cs.take (splitIndex cs.length m)))
         (cs.take (splitIndex cs.length m)),
       .node (mbr_of_children (cs.drop (splitIndex cs.length m)))
         (cs.drop (splitIndex cs.length m))) ∧
     1 ≤ splitIndex cs.length m ∧ splitIndex cs.length m ≤ cs.length - 1 ∧
     (2 * m ≤ cs.length →
       m ≤ splitIndex cs.length m ∧ m ≤ cs.length - splitIndex cs.length m) ∧
     (cs.length ≤ 2 * m → splitIndex cs.length m = (cs.length + 1) / 2) ∧
     (2 * m < cs.length → splitIndex cs.length m = cs.length / 2)) := by
  obtain ⟨h1e, h2e⟩ := splitIndex_bounds (m := m) hes
  obtain ⟨h1c, h2c⟩ := splitIndex_bounds (m := m) hcs
  refine ⟨⟨split_node_leaf m r es, h1e, h2e, ?_, ?_, ?_⟩,
    ⟨split_node_node m r cs, h1c, h2c, ?_, ?_, ?_⟩⟩
  · exact fun h => splitIndex_min_entries hes h
  · exact fun h => splitIndex_small hes h
  · exact fun h => splitIndex_large hes h
  · exact fun h => splitIndex_min_entries hcs h
  · exact fun h => splitIndex_small hcs h
  · exact fun h => splitIndex_large hcs h

/-- C7, witness for the amended theorem at concrete inputs of size 4. -/
theorem C7_witness :
    (2 ≤ ([⟨1, "a", 0, ⟨⟨0, 0⟩, ⟨1, 1⟩⟩⟩, ⟨2, "b", 0, ⟨⟨0, 0⟩, ⟨1, 1⟩⟩⟩,
        ⟨3, "c", 0, ⟨⟨0, 0⟩, ⟨1, 1⟩⟩⟩, ⟨4, "d", 0, ⟨⟨0, 0⟩, ⟨1, 1⟩⟩⟩] :
        List DataItem).length) ∧
    (2 ≤ ([.leaf Rectangle.default0 [], .leaf Rectangle.default0 [],
        .leaf Rectangle.default0 [], .leaf Rectangle.default0 []] :
        List RTreeNode).length) ∧
    ((split_node 2 (.leaf Rectangle.default0
        [⟨1, "a", 0, ⟨⟨0, 0⟩, ⟨1, 1⟩⟩⟩, ⟨2, "b", 0, ⟨⟨0, 0⟩, ⟨1, 1⟩⟩⟩,
         ⟨3, "c", 0, ⟨⟨0, 0⟩, ⟨1, 1⟩⟩⟩, ⟨4, "d", 0, ⟨⟨0, 0⟩, ⟨1, 1⟩⟩⟩])).1.size = 2 ∧
     (split_node 2 (.leaf Rectangle.default0
        [⟨1, "a", 0, ⟨⟨0, 0⟩, ⟨1, 1⟩⟩⟩, ⟨2, "b", 0, ⟨⟨0, 0⟩, ⟨1, 1⟩⟩⟩,
         ⟨3, "c", 0, ⟨⟨0, 0⟩, ⟨1, 1⟩⟩⟩, ⟨4, "d", 0, ⟨⟨0, 0⟩, ⟨1, 1⟩⟩⟩])).2.size = 2) := by
  have h := C7_split_positional 2 Rectangle.default0
    [⟨1, "a", 0, ⟨⟨0, 0⟩, ⟨1, 1⟩⟩⟩, ⟨2, "b", 0, ⟨⟨0, 0⟩, ⟨1, 1⟩⟩⟩,
     ⟨3, "c", 0, ⟨⟨0, 0⟩, ⟨1, 1⟩⟩⟩, ⟨4, "d", 0, ⟨⟨0, 0⟩, ⟨1, 1⟩⟩⟩]
    [.leaf Rectangle.default0 [], .leaf Rectangle.default0 [],
     .leaf Rectangle.default0 [], .leaf Rectangle.default0 []]
    (by decide) (by decide)
  refine ⟨by decide, by decide, ?_, ?_⟩
  · rw [h.1.1]
    decide
  · rw [h.1.1]
    decide

/-- C8: for every nonempty children list (children are never null in this
embedding, matching the source where child pointers are only ever created
non-null) and every item rectangle, `choose_subtree` returns the index of
a child whose `area_increase` is minimal over all children, and which,
among the children achieving that minimal increase, has minimal current
mbr area. -/
theorem C8_choose_minimal (cs : List RTreeNode) (b : Rectangle) (hne : cs ≠ []) :
    ∃ i, ∃ h : i < cs.length, choose_subtree cs b = some i ∧
      ∀ c ∈ cs, (cs.get ⟨i, h⟩).mbr.area_increase b ≤ c.mbr.area_increase b ∧
        (c.mbr.area_increase b = (cs.get ⟨i, h⟩).mbr.area_increase b →
          (cs.get ⟨i, h⟩).mbr.area ≤ c.mbr.area) :=
  choose_subtree_min b hne

/-- C8, witness at a concrete two-child list. -/
theorem C8_witness :
    (([.leaf ⟨⟨0, 0⟩, ⟨1, 1⟩⟩ [], .leaf ⟨⟨0, 0⟩, ⟨2, 2⟩⟩ []] : List RTreeNode) ≠ []) ∧
    (∃ i, ∃ h : i < ([.leaf ⟨⟨0, 0⟩, ⟨1, 1⟩⟩ [], .leaf ⟨⟨0, 0⟩, ⟨2, 2⟩⟩ []] :
        List RTreeNode).length,
      choose_subtree [.leaf ⟨⟨0, 0⟩, ⟨1, 1⟩⟩ [], .leaf ⟨⟨0, 0⟩, ⟨2, 2⟩⟩ []]
        ⟨⟨0, 0⟩, ⟨1, 1⟩⟩ = some i ∧
      ∀ c ∈ ([.leaf ⟨⟨0, 0⟩, ⟨1, 1⟩⟩ [], .leaf ⟨⟨0, 0⟩, ⟨2, 2⟩⟩ []] : List RTreeNode),
        (([.leaf ⟨⟨0, 0⟩, ⟨1, 1⟩⟩ [], .leaf ⟨⟨0, 0⟩, ⟨2, 2⟩⟩ []] :
            List RTreeNode).get ⟨i, h⟩).mbr.area_increase ⟨⟨0, 0⟩, ⟨1, 1⟩⟩ ≤
          c.mbr.area_increase ⟨⟨0, 0⟩, ⟨1, 1⟩⟩ ∧
        (c.mbr.area_increase ⟨⟨0, 0⟩, ⟨1, 1⟩⟩ =
            (([.leaf ⟨⟨0, 0⟩, ⟨1, 1⟩⟩ [], .leaf ⟨⟨0, 0⟩, ⟨2, 2⟩⟩ []] :
              List RTreeNode).get ⟨i, h⟩).mbr.area_increase ⟨⟨0, 0⟩, ⟨1, 1⟩⟩ →
          (([.leaf ⟨⟨0, 0⟩, ⟨1, 1⟩⟩ [], .leaf ⟨⟨0, 0⟩, ⟨2, 2⟩⟩ []] :
              List RTreeNode).get ⟨i, h⟩).mbr.area ≤ c.mbr.area)) :=
  ⟨by simp, C8_choose_minimal _ _ (by simp)⟩

/-- C9: `search`, `search_with_population` and `empty` are total functions
of the tree state in this embedding (they can raise nothing), and on every
tree reachable from a freshly constructed tree by inserts alone, `insert`
— whose only failure paths are the two `choose_subtree` throws, modelled
by `none` — always succeeds: the invariant that every internal node has at
least one (non-null) child holds on all reachable trees, so the
invariant-violation check never fires. -/
theorem C9_no_exceptions (minE maxE : ℕ) (xs : List DataItem) :
    ∃ t, insertList (RTree.new minE maxE) xs = some t ∧
      ∀ item, (t.insert item).isSome = true := by
  obtain ⟨t, hins, hinv, _, _, _⟩ := insertList_spec (treeInv_new minE maxE) xs
  refine ⟨t, hins, fun item => ?_⟩
  obtain ⟨t1, h1, _⟩ := insert_spec hinv item
  rw [h1]
  rfl

/-- C10: the default-constructed rectangle has both corners (0,0); it is
valid (min ≤ max on both axes), has area 0, contains the point (0,0), and
intersects exactly those rectangles whose x-range and y-range both contain
0 — a degenerate point box, not one the predicates treat as empty. -/
theorem C10_default_rectangle :
    Rectangle.default0 = ⟨⟨0, 0⟩, ⟨0, 0⟩⟩ ∧
    Rectangle.default0.validR ∧
    Rectangle.default0.area = 0 ∧
    Rectangle.default0.containsP ⟨0, 0⟩ = true ∧
    ∀ r : Rectangle, Rectangle.default0.intersects r =
      decide (r.min_corner.x ≤ 0 ∧ 0 ≤ r.max_corner.x ∧
        r.min_corner.y ≤ 0 ∧ 0 ≤ r.max_corner.y) := by
  refine ⟨rfl, by decide, by norm_num [Rectangle.area, Rectangle.default0], by decide, ?_⟩
  intro r
  unfold Rectangle.intersects Rectangle.default0
  by_cases h : (0 : ℚ) < r.min_corner.x ∨ (0 : ℚ) > r.max_corner.x ∨
      (0 : ℚ) < r.min_corner.y ∨ (0 : ℚ) > r.max_corner.y
  · rw [if_pos h]
    symm
    rw [decide_eq_false_iff_not]
    rintro ⟨a, b, c, d⟩
    rcases h with h | h | h | h <;> linarith
  · rw [if_neg h]
    symm
    rw [decide_eq_true_eq]
    push_neg at h
    exact ⟨h.1, h.2.1, h.2.2.1, h.2.2.2⟩

end RTreeSpec
